import Mathlib

/-!
Verification development for the speedy.js core: the runtime growable
Array (runtime/Array.h), the bitcode linker resolution loop (LLVMLink),
and the fallback code generator (NotYetImplementedCodeGenerator).

The C++ runtime array is embedded with machine sizes as Nat (size_t
arithmetic is made explicit, modulo 2^64, exactly where the source can
wrap: the fill index resolution). The backing buffer is a
List (Option T) of length equal to the capacity; a slot holding none is
uninitialized memory (fresh realloc space), a slot holding some v is an
initialized element. Fallible operations return Except.
-/

namespace SpeedyJS

/-- Maximum representable index, INT32_MAX in the runtime header. -/
def INT32_MAX : Nat := 2 ^ 31 - 1

/-- Growth factor constant from the runtime header. -/
def CAPACITY_GROW_FACTOR : Nat := 2

/-- Default capacity constant from the runtime header. -/
def DEFAULT_CAPACITY : Nat := 16

/-- Size of the size_t modulus, used where the source converts a signed
32 bit index to size_t. -/
def SIZE_T_MOD : Int := 2 ^ 64

/-- Errors thrown by the runtime array: std::out_of_range on an index
check, std::out_of_range with the empty message on pop or shift of an
empty array, std::out_of_range on exceeding INT32_MAX. The model keeps
the three operation level categories of the spec taxonomy apart. -/
inductive ArrErr where
  | indexOutOfRange
  | emptyArray
  | capacityExceeded
deriving DecidableEq, Repr

/-- The runtime array: length, capacity, and the elements buffer. The
buffer list has the size of the capacity; a none entry is an
uninitialized slot. The source stores a T pointer that is nullptr
exactly when no allocation exists, modelled by the empty list. -/
structure Array (T : Type) where
  length : Nat
  capacity : Nat
  elements : List (Option T)
deriving DecidableEq, Repr

/-- Models a std::fill or std::fill_n through the buffer pointer:
writes v into the count slots starting at s. Writes past the end of the
buffer are dropped because List.set ignores out of range indices. -/
def setRange {T : Type} : List (Option T) → Option T → Nat → Nat → List (Option T)
  | buf, _, _, 0 => buf
  | buf, v, s, n + 1 => setRange (buf.set s v) v (s + 1) n

/-- Models std::copy on one buffer: sequentially copies n slots from
source position s to destination position d, front to back, reading the
buffer as already modified by the earlier steps. This is the element by
element semantics of std::copy; when the destination range overlaps the
source range from the right the early writes clobber later reads,
exactly the undefined overlap the C++ standard forbids for std::copy. -/
def copySeq {T : Type} : List (Option T) → Nat → Nat → Nat → List (Option T)
  | buf, _, _, 0 => buf
  | buf, s, d, n + 1 => copySeq (buf.set d (buf.getD s none)) (s + 1) (d + 1) n

/-- Models std::copy from an external caller buffer (no overlap): writes
the given values one after the other starting at destination d. -/
def writeList {T : Type} : List (Option T) → Nat → List T → List (Option T)
  | buf, _, [] => buf
  | buf, d, x :: xs => writeList (buf.set d (some x)) (d + 1) xs

/-- Array::allocateElements: throws if the capacity exceeds INT32_MAX,
otherwise reallocates: the old contents survive up to the new capacity
and the fresh tail is uninitialized memory. Allocation failure
(std::bad_alloc) is not modelled: the model allocator always succeeds. -/
def allocateElements {T : Type} (capacity : Nat) (elements : List (Option T)) :
    Except ArrErr (List (Option T)) :=
  if capacity > INT32_MAX then .error .capacityExceeded
  else .ok (elements.take capacity ++ List.replicate (capacity - elements.length) none)

/-- Array::Array(size, elements): the constructor. A zero size makes no
allocation (null buffer); otherwise the buffer is allocated and either
default initialized with zero or filled by copying size values from the
caller buffer. -/
def Array.make {T : Type} [Zero T] (size : Nat) (init : Option (List T)) :
    Except ArrErr (Array T) :=
  if size = 0 then .ok ⟨0, 0, []⟩
  else
    match allocateElements size ([] : List (Option T)) with
    | .error e => .error e
    | .ok buf =>
      match init with
      | none => .ok ⟨size, size, setRange buf (some 0) 0 size⟩
      | some xs => .ok ⟨size, size, writeList buf 0 (xs.take size)⟩

/-- Array::get(index): bounds check against the length, then read the
slot. The read yields the slot contents, none when the slot is
uninitialized junk. -/
def Array.get {T : Type} (a : Array T) (index : Nat) : Except ArrErr (Option T) :=
  if a.length ≤ index then .error .indexOutOfRange
  else .ok (a.elements.getD index none)

/-- Array::ensureCapacity(min): returns unchanged when the capacity
suffices; throws when min exceeds INT32_MAX; otherwise doubles the
capacity (or starts at the default capacity), raises the result to min
when still short, caps the result at INT32_MAX, and reallocates. -/
def Array.ensureCapacity {T : Type} (a : Array T) (min : Nat) : Except ArrErr (Array T) :=
  if a.capacity ≥ min then .ok a
  else if min > INT32_MAX then .error .capacityExceeded
  else
    let newCapacity0 := if a.capacity = 0 then DEFAULT_CAPACITY
      else a.capacity * CAPACITY_GROW_FACTOR
    let newCapacity1 := if newCapacity0 < min then min else newCapacity0
    let newCapacity := if newCapacity1 > INT32_MAX then INT32_MAX else newCapacity1
    match allocateElements newCapacity a.elements with
    | .error e => .error e
    | .ok buf => .ok { a with capacity := newCapacity, elements := buf }

/-- Array::resize(newSize): ensures capacity, zero fills the gap from
the old length when growing, and sets the length. The capacity is never
reduced. -/
def Array.resize {T : Type} [Zero T] (a : Array T) (newSize : Nat) :
    Except ArrErr (Array T) :=
  match a.ensureCapacity newSize with
  | .error e => .error e
  | .ok a' =>
    if a'.length < newSize then
      .ok { a' with
            length := newSize
            elements := setRange a'.elements (some 0) a'.length (newSize - a'.length) }
    else .ok { a' with length := newSize }

/-- Array::set(index, value): resizes to index + 1 when the index is at
or past the length, then writes the value into the slot. -/
def Array.set {T : Type} [Zero T] (a : Array T) (index : Nat) (value : T) :
    Except ArrErr (Array T) :=
  if a.length ≤ index then
    match a.resize (index + 1) with
    | .error e => .error e
    | .ok a' => .ok { a' with elements := a'.elements.set index (some value) }
  else .ok { a with elements := a.elements.set index (some value) }

/-- Index resolution of Array::fill: a negative signed 32 bit index is
added to the size_t length, which is machine addition modulo 2^64; a non
negative index converts to size_t unchanged. -/
def resolveFillIndex (length : Nat) (i : Int) : Nat :=
  if i < 0 then (((length : Int) + i) % SIZE_T_MOD).toNat else i.toNat

/-- Array::fill(value, start, end): resolves the two signed indices,
throws when the resolved start reaches the length or the resolved end
exceeds it, returns unchanged when the resolved end is below the
resolved start, and otherwise fills the slots of the half open range. -/
def Array.fill {T : Type} (a : Array T) (value : T) (start end_ : Int) :
    Except ArrErr (Array T) :=
  let startIndex := resolveFillIndex a.length start
  let endIndex := resolveFillIndex a.length end_
  if startIndex ≥ a.length then .error .indexOutOfRange
  else if endIndex > a.length then .error .indexOutOfRange
  else if endIndex < startIndex then .ok a
  else .ok { a with elements := setRange a.elements (some value) startIndex (endIndex - startIndex) }

/-- Array::push(elements, numElements): ensures capacity for the new
length, copies the incoming values after the current contents, updates
the length and returns it. -/
def Array.push {T : Type} (a : Array T) (xs : List T) : Except ArrErr (Nat × Array T) :=
  let newLength := a.length + xs.length
  match a.ensureCapacity newLength with
  | .error e => .error e
  | .ok a' =>
    .ok (newLength, { a' with
                      length := newLength
                      elements := writeList a'.elements a'.length xs })

/-- Array::unshift(elements, numElements): ensures capacity, performs
std::copy of the current contents to the position numElements further
right (the overlapping sequential copy of copySeq, as the source is
written), writes the incoming values at the front, updates the length
and returns it. -/
def Array.unshift {T : Type} (a : Array T) (xs : List T) : Except ArrErr (Nat × Array T) :=
  let newLength := a.length + xs.length
  match a.ensureCapacity newLength with
  | .error e => .error e
  | .ok a' =>
    let shifted := copySeq a'.elements 0 xs.length a'.length
    .ok (newLength, { a' with length := newLength, elements := writeList shifted 0 xs })

/-- Array::pop(): throws on an empty array, otherwise decrements the
length and returns the slot at the old last position. The buffer is not
touched. -/
def Array.pop {T : Type} (a : Array T) : Except ArrErr (Option T × Array T) :=
  if a.length = 0 then .error .emptyArray
  else .ok (a.elements.getD (a.length - 1) none, { a with length := a.length - 1 })

/-- Array::shift(): throws on an empty array, otherwise reads the first
slot, copies the remaining length minus one slots one position to the
left (std::copy with the destination before the source, which the
sequential semantics performs correctly) and decrements the length. -/
def Array.shift {T : Type} (a : Array T) : Except ArrErr (Option T × Array T) :=
  if a.length = 0 then .error .emptyArray
  else .ok (a.elements.getD 0 none,
    { a with length := a.length - 1, elements := copySeq a.elements 1 0 (a.length - 1) })

/-- Buffer invariants of the runtime array, as documented on the
fields: the length never exceeds the capacity, the buffer has the size
of the capacity, the capacity stays within INT32_MAX (enforced by
allocateElements), the buffer is null exactly when the capacity is
zero, and every slot below the length is initialized. -/
def Array.inv {T : Type} (a : Array T) : Prop :=
  a.length ≤ a.capacity ∧
  a.elements.length = a.capacity ∧
  a.capacity ≤ INT32_MAX ∧
  (a.elements = [] ↔ a.capacity = 0) ∧
  ∀ i, i < a.length → (a.elements.getD i none).isSome

instance {T : Type} [DecidableEq T] (a : Array T) : Decidable a.inv := by
  unfold Array.inv
  haveI : Decidable (∀ i, i < a.length → (a.elements.getD i none).isSome) :=
    Nat.decidableBallLT a.length _
  infer_instance

/-- Test harness for the growth chain: pushes one zero element, keeping
the array unchanged when push fails. -/
def pushOne {T : Type} [Zero T] (a : Array T) : Array T :=
  match a.push [0] with
  | .ok (_, a') => a'
  | .error _ => a

/-- Capacity produced by the growth branch of Array::ensureCapacity:
double the capacity (or start at the default), never below the required
minimum, capped at INT32_MAX. -/
def grownCapacity (cap required : Nat) : Nat :=
  min (max required (if cap = 0 then DEFAULT_CAPACITY else cap * CAPACITY_GROW_FACTOR))
    INT32_MAX

/-- A bitcode or object file as the linker sees it: its path, and the
defined and undefined symbol sets that the symbol listing tool
(LLVMByteCodeSymbolsResolver.getSymbols) reports for it. The symbol
sets ride along with the file because the resolver computes them once
per file. -/
structure ObjectFile where
  path : String
  defined : Finset String
  undefined : Finset String
deriving DecidableEq

namespace LLVMLink

/-- The intersects helper of the linker module: whether two symbol sets
share an element. The source iterates the smaller set against the
larger one; the result is the existence of a common symbol. -/
def intersects (setA setB : Finset String) : Bool :=
  decide (setA ∩ setB).Nonempty

/-- LLVMLink.considerObjectFile: when the unresolved set intersects the
defined symbols of the file, the file is accepted, its defined symbols
are deleted from the unresolved set and its undefined symbols added.
Returns the acceptance flag and the updated unresolved set. -/
def considerObjectFile (objectFile : ObjectFile) (unresolvedSymbols : Finset String) :
    Bool × Finset String :=
  if intersects unresolvedSymbols objectFile.defined then
    (true, (unresolvedSymbols \ objectFile.defined) ∪ objectFile.undefined)
  else
    (false, unresolvedSymbols)

/-- One pass of the fixed point loop of LLVMLink.getObjectFilesToLink:
scans the candidate files in order, skips the ones already included,
and includes every file that considerObjectFile accepts, threading the
unresolved set through. The boolean result is the loopAgain flag of the
source, true exactly when the pass included at least one new file. -/
def onePass : List ObjectFile → Finset String → Finset String →
    Finset String × Finset String × Bool
  | [], includedObjectFiles, unresolvedSymbols =>
    (includedObjectFiles, unresolvedSymbols, false)
  | objectFile :: rest, includedObjectFiles, unresolvedSymbols =>
    if objectFile.path ∈ includedObjectFiles then
      onePass rest includedObjectFiles unresolvedSymbols
    else
      match considerObjectFile objectFile unresolvedSymbols with
      | (true, unresolved') =>
        let r := onePass rest (insert objectFile.path includedObjectFiles) unresolved'
        (r.1, r.2.1, true)
      | (false, _) => onePass rest includedObjectFiles unresolvedSymbols

/-- The while loop of LLVMLink.getObjectFilesToLink, with explicit
fuel: one fuel unit per pass, stopping early when a pass includes
nothing new. The source loop is unbounded; the theorem
linkLoop_reaches_fixpoint shows the fuel passed by getObjectFilesToLink
is never exhausted, so the fuel rendering is faithful. -/
def linkLoop (objectFiles : List ObjectFile) :
    Nat → Finset String → Finset String → Finset String × Finset String
  | 0, includedObjectFiles, unresolvedSymbols => (includedObjectFiles, unresolvedSymbols)
  | fuel + 1, includedObjectFiles, unresolvedSymbols =>
    match onePass objectFiles includedObjectFiles unresolvedSymbols with
    | (included', unresolved', true) => linkLoop objectFiles fuel included' unresolved'
    | (included', unresolved', false) => (included', unresolved')

/-- LLVMLink.getObjectFilesToLink: seeds the unresolved set from the
entry symbols with the included set empty and runs the loop to its
fixed point. The pair holds the included file paths and the final
unresolved symbols (the source returns only the former; the latter is
kept so that the termination condition can be stated). -/
def getObjectFilesToLink (objectFiles : List ObjectFile) (entrySymbols : List String) :
    Finset String × Finset String :=
  linkLoop objectFiles (objectFiles.length + 1) ∅ entrySymbols.toFinset

/-- The paths of a candidate list, as a finite set. -/
def pathsOf (objectFiles : List ObjectFile) : Finset String :=
  (objectFiles.map ObjectFile.path).toFinset

end LLVMLink

/-- A syntax node as the fallback generator sees it: the kind tag and
the source position. -/
structure TsNode where
  kind : Nat
  pos : Nat
deriving DecidableEq

/-- Category of a code generation diagnostic; the fallback generator
only ever raises UnsupportedSyntaxKind. -/
inductive DiagnosticCategory where
  | unsupportedSyntaxKind
deriving DecidableEq

/-- Modelled from the spec: the diagnostic data model ("Diagnostic:
nodeLocation, category, message; immutable once created"). The
constructor CodeGenerationDiagnostic.unsupportedSyntaxKind lives in
code-generation-diagnostic.ts, which is not among the sources; the
message is represented by the node kind it names. -/
structure CodeGenerationDiagnostic where
  nodeLocation : Nat
  category : DiagnosticCategory
  messageKind : Nat
deriving DecidableEq

/-- Modelled from the spec: the unsupported syntax kind diagnostic
names exactly the kind and the source location of the offending
node. -/
def CodeGenerationDiagnostic.unsupportedSyntaxKind (node : TsNode) : CodeGenerationDiagnostic :=
  ⟨node.pos, .unsupportedSyntaxKind, node.kind⟩

/-- NotYetImplementedCodeGenerator.generate: throws the unsupported
syntax kind diagnostic for the node. A generator returns the possibly
mutated context on success; this one always fails before touching
it. -/
def NotYetImplementedCodeGenerator.generate {Ctx : Type} (node : TsNode) (context : Ctx) :
    Except CodeGenerationDiagnostic Ctx :=
  .error (CodeGenerationDiagnostic.unsupportedSyntaxKind node)

theorem getD_set {T : Type} (l : List (Option T)) (i j : Nat) (v : Option T) :
    (l.set i v).getD j none = if i = j ∧ j < l.length then v else l.getD j none := by
  induction l generalizing i j with
  | nil => simp [List.getD]
  | cons x xs ih =>
    cases i with
    | zero =>
      cases j with
      | zero => simp [List.getD]
      | succ j => simp [List.getD, Nat.succ_lt_succ_iff]
    | succ i =>
      cases j with
      | zero => simp [List.getD]
      | succ j =>
        simp only [List.set, List.getD, List.get?_eq_getElem?, List.getElem?_cons_succ]
        have := ih i j
        simp only [List.getD, List.get?_eq_getElem?] at this
        rw [this]
        simp [Nat.succ_lt_succ_iff]

theorem length_setRange {T : Type} (v : Option T) (n : Nat) :
    ∀ (buf : List (Option T)) (s : Nat), (setRange buf v s n).length = buf.length := by
  induction n with
  | zero => intro buf s; rfl
  | succ n ih => intro buf s; rw [setRange, ih, List.length_set]

theorem getD_setRange {T : Type} (v : Option T) (n : Nat) :
    ∀ (buf : List (Option T)) (s j : Nat),
      (setRange buf v s n).getD j none =
        if s ≤ j ∧ j < s + n ∧ j < buf.length then v else buf.getD j none := by
  induction n with
  | zero =>
    intro buf s j
    have h : ¬ (s ≤ j ∧ j < s + 0 ∧ j < buf.length) := by omega
    rw [setRange, if_neg h]
  | succ n ih =>
    intro buf s j
    rw [setRange, ih, List.length_set, getD_set]
    split_ifs <;> first | rfl | omega

theorem length_copySeq {T : Type} (n : Nat) :
    ∀ (buf : List (Option T)) (s d : Nat), (copySeq buf s d n).length = buf.length := by
  induction n with
  | zero => intro buf s d; rfl
  | succ n ih => intro buf s d; rw [copySeq, ih, List.length_set]

theorem getD_copySeq_untouched {T : Type} (n : Nat) :
    ∀ (buf : List (Option T)) (s d j : Nat), j < d ∨ d + n ≤ j →
      (copySeq buf s d n).getD j none = buf.getD j none := by
  induction n with
  | zero => intro buf s d j _; rfl
  | succ n ih =>
    intro buf s d j hj
    rw [copySeq, ih _ _ _ _ (by omega), getD_set]
    have : ¬ (d = j ∧ j < buf.length) := by
      intro ⟨h1, _⟩
      omega
    simp [this]

theorem getD_copySeq_shiftLeft {T : Type} (n : Nat) :
    ∀ (buf : List (Option T)) (s d j : Nat), d < s →
      (copySeq buf s d n).getD j none =
        if d ≤ j ∧ j < d + n ∧ j < buf.length then buf.getD (s + (j - d)) none
        else buf.getD j none := by
  induction n with
  | zero =>
    intro buf s d j _
    have h : ¬ (d ≤ j ∧ j < d + 0 ∧ j < buf.length) := by omega
    rw [copySeq, if_neg h]
  | succ n ih =>
    intro buf s d j hds
    rw [copySeq, ih _ _ _ _ (by omega), List.length_set, getD_set, getD_set]
    split_ifs <;> first | rfl | omega | (congr 1; omega)

theorem length_writeList {T : Type} (xs : List T) :
    ∀ (buf : List (Option T)) (d : Nat), (writeList buf d xs).length = buf.length := by
  induction xs with
  | nil => intro buf d; rfl
  | cons x xs ih => intro buf d; rw [writeList, ih, List.length_set]

theorem getD_writeList {T : Type} (xs : List T) :
    ∀ (buf : List (Option T)) (d j : Nat),
      (writeList buf d xs).getD j none =
        if d ≤ j ∧ j < d + xs.length ∧ j < buf.length then xs[j - d]?
        else buf.getD j none := by
  induction xs with
  | nil =>
    intro buf d j
    have h : ¬ (d ≤ j ∧ j < d + ([] : List T).length ∧ j < buf.length) := by
      simp only [List.length_nil]
      omega
    rw [writeList, if_neg h]
  | cons x xs ih =>
    intro buf d j
    rw [writeList, ih, List.length_set, getD_set]
    by_cases hj : d = j
    · subst hj
      by_cases hlen : d < buf.length
      · have h1 : ¬ (d + 1 ≤ d ∧ d < d + 1 + xs.length ∧ d < buf.length) := by omega
        have h2 : d ≤ d ∧ d < d + (x :: xs).length ∧ d < buf.length := by
          simp only [List.length_cons]
          omega
        rw [if_neg h1, if_pos ⟨rfl, hlen⟩, if_pos h2, Nat.sub_self,
          List.getElem?_cons_zero]
      · have h1 : ¬ (d + 1 ≤ d ∧ d < d + 1 + xs.length ∧ d < buf.length) := by omega
        have h2 : ¬ (d ≤ d ∧ d < d + (x :: xs).length ∧ d < buf.length) := by
          simp only [List.length_cons]
          omega
        rw [if_neg h1, if_neg (by simp [hlen]), if_neg h2]
    · by_cases hin : d + 1 ≤ j ∧ j < d + 1 + xs.length ∧ j < buf.length
      · have h2 : d ≤ j ∧ j < d + (x :: xs).length ∧ j < buf.length := by
          simp only [List.length_cons]
          omega
        rw [if_pos hin, if_pos h2]
        have harr : j - d = (j - (d + 1)) + 1 := by omega
        rw [harr, List.getElem?_cons_succ]
      · have h2 : ¬ (d ≤ j ∧ j < d + (x :: xs).length ∧ j < buf.length) := by
          simp only [List.length_cons]
          omega
        rw [if_neg hin, if_neg (by simp [hj]), if_neg h2]

theorem copySeq_isSome {T : Type} (n : Nat) :
    ∀ (buf : List (Option T)) (s d : Nat),
      (∀ i, i < s + n → (buf.getD i none).isSome) → d + n ≤ buf.length →
      (∀ i, i < s + n → ((copySeq buf s d n).getD i none).isSome) ∧
      (∀ k, k < n → ((copySeq buf s d n).getD (d + k) none).isSome) := by
  induction n with
  | zero =>
    intro buf s d h _
    exact ⟨fun i hi => h i hi, fun k hk => absurd hk (Nat.not_lt_zero k)⟩
  | succ n ih =>
    intro buf s d h hlen
    have hdlen : d < buf.length := by omega
    have hslot : ((buf.set d (buf.getD s none)).getD d none).isSome := by
      rw [getD_set, if_pos ⟨rfl, hdlen⟩]
      exact h s (by omega)
    have hread : ∀ i, i < (s + 1) + n → (((buf.set d (buf.getD s none))).getD i none).isSome := by
      intro i hi
      rw [getD_set]
      by_cases hc : d = i ∧ i < buf.length
      · rw [if_pos hc]
        exact h s (by omega)
      · rw [if_neg hc]
        exact h i (by omega)
    have hlen' : (d + 1) + n ≤ (buf.set d (buf.getD s none)).length := by
      rw [List.length_set]
      omega
    obtain ⟨ih1, ih2⟩ := ih (buf.set d (buf.getD s none)) (s + 1) (d + 1) hread hlen'
    constructor
    · intro i hi
      rw [copySeq]
      exact ih1 i (by omega)
    · intro k hk
      rw [copySeq]
      cases k with
      | zero =>
        have huntouched :=
          getD_copySeq_untouched n (buf.set d (buf.getD s none)) (s + 1) (d + 1) d
            (Or.inl (by omega))
        simp only [Nat.add_zero, huntouched]
        exact hslot
      | succ k =>
        have : d + (k + 1) = (d + 1) + k := by omega
        rw [this]
        exact ih2 k (by omega)

theorem allocateElements_ok {T : Type} (capacity : Nat) (elements : List (Option T))
    (hcap : capacity ≤ INT32_MAX) (hlen : elements.length ≤ capacity) :
    ∃ buf, allocateElements capacity elements = .ok buf ∧ buf.length = capacity ∧
      ∀ j, buf.getD j none = if j < elements.length then elements.getD j none else none := by
  refine ⟨_, by rw [allocateElements, if_neg (Nat.not_lt.mpr hcap)], ?_, ?_⟩
  · rw [List.length_append, List.length_take, List.length_replicate]
    omega
  · intro j
    have htake : elements.take capacity = elements := List.take_of_length_le hlen
    rw [htake]
    by_cases hj : j < elements.length
    · rw [if_pos hj, List.getD_append _ _ _ _ hj]
    · rw [if_neg hj, List.getD_append_right _ _ _ _ (Nat.le_of_not_lt hj)]
      by_cases hj2 : j - elements.length < capacity - elements.length
      · rw [List.getD_eq_getElem _ _ (by rw [List.length_replicate]; exact hj2),
          List.getElem_replicate]
      · exact List.getD_eq_default _ _ (by rw [List.length_replicate]; omega)

theorem ensureCapacity_ok_of_le {T : Type} (a : Array T) (min : Nat) (h : min ≤ a.capacity) :
    a.ensureCapacity min = .ok a := by
  unfold Array.ensureCapacity
  rw [if_pos h]

theorem ensureCapacity_error {T : Type} (a : Array T) (min : Nat) (h1 : a.capacity < min)
    (h2 : INT32_MAX < min) : a.ensureCapacity min = .error .capacityExceeded := by
  unfold Array.ensureCapacity
  rw [if_neg (by omega), if_pos h2]

theorem min_le_grownCapacity (cap required : Nat) (h : required ≤ INT32_MAX) :
    required ≤ grownCapacity cap required := by
  unfold grownCapacity
  omega

theorem grownCapacity_le (cap required : Nat) : grownCapacity cap required ≤ INT32_MAX := by
  unfold grownCapacity
  omega

theorem ensureCapacity_grow {T : Type} (a : Array T) (min : Nat)
    (hlen : a.elements.length = a.capacity) (h1 : a.capacity < min) (h2 : min ≤ INT32_MAX) :
    ∃ buf, a.ensureCapacity min = .ok ⟨a.length, grownCapacity a.capacity min, buf⟩ ∧
      buf.length = grownCapacity a.capacity min ∧
      ∀ j, buf.getD j none = if j < a.elements.length then a.elements.getD j none else none := by
  have hmin_le : min ≤ grownCapacity a.capacity min := min_le_grownCapacity _ _ h2
  have hg_le : grownCapacity a.capacity min ≤ INT32_MAX := grownCapacity_le _ _
  have hbuf_le : a.elements.length ≤ grownCapacity a.capacity min := by omega
  obtain ⟨buf, hok, hblen, hbget⟩ :=
    allocateElements_ok (grownCapacity a.capacity min) a.elements hg_le hbuf_le
  refine ⟨buf, ?_, hblen, hbget⟩
  have hifs : ∀ nc0 : Nat,
      (if (if nc0 < min then min else nc0) > INT32_MAX then INT32_MAX
       else if nc0 < min then min else nc0) = Min.min (Max.max min nc0) INT32_MAX := by
    intro nc0
    split_ifs <;> omega
  simp only [Array.ensureCapacity]
  rw [if_neg (by omega), if_neg (by omega)]
  simp only [hifs]
  rw [show Min.min (Max.max min (if a.capacity = 0 then DEFAULT_CAPACITY
      else a.capacity * CAPACITY_GROW_FACTOR)) INT32_MAX = grownCapacity a.capacity min from rfl]
  rw [hok]

theorem resize_spec {T : Type} [Zero T] (a : Array T) (newSize : Nat)
    (hla : a.length ≤ a.capacity) (hlen : a.elements.length = a.capacity)
    (hcap : a.capacity ≤ INT32_MAX) (h2 : newSize ≤ INT32_MAX) :
    ∃ a', a.resize newSize = .ok a' ∧
      a'.length = newSize ∧
      a'.elements.length = a'.capacity ∧
      a.capacity ≤ a'.capacity ∧
      newSize ≤ a'.capacity ∧
      a'.capacity ≤ INT32_MAX ∧
      (∀ j, j < a.length → j < newSize → a'.elements.getD j none = a.elements.getD j none) ∧
      (∀ j, a.length ≤ j → j < newSize → a'.elements.getD j none = some 0) := by
  by_cases hgrow : a.capacity < newSize
  · obtain ⟨buf, hok, hblen, hbget⟩ := ensureCapacity_grow a newSize hlen hgrow h2
    have hg1 : newSize ≤ grownCapacity a.capacity newSize := min_le_grownCapacity _ _ h2
    have hg2 : grownCapacity a.capacity newSize ≤ INT32_MAX := grownCapacity_le _ _
    refine ⟨⟨newSize, grownCapacity a.capacity newSize,
      setRange buf (some 0) a.length (newSize - a.length)⟩, ?_, rfl, ?_, ?_, ?_, ?_, ?_, ?_⟩
    · unfold Array.resize
      rw [hok]
      dsimp only
      rw [if_pos (show a.length < newSize by omega)]
    · dsimp only
      rw [length_setRange]
      exact hblen
    · dsimp only
      omega
    · dsimp only
      omega
    · exact hg2
    · intro j hj1 hj2
      dsimp only
      rw [getD_setRange, if_neg (by omega), hbget, if_pos (by omega)]
    · intro j hj1 hj2
      dsimp only
      rw [getD_setRange, if_pos ⟨hj1, by omega, by rw [hblen]; omega⟩]
  · have hok := ensureCapacity_ok_of_le a newSize (by omega)
    by_cases hfill : a.length < newSize
    · refine ⟨⟨newSize, a.capacity, setRange a.elements (some 0) a.length (newSize - a.length)⟩,
        ?_, rfl, ?_, ?_, ?_, ?_, ?_, ?_⟩
      · unfold Array.resize
        rw [hok]
        dsimp only
        rw [if_pos hfill]
      · dsimp only
        rw [length_setRange]
        exact hlen
      · dsimp only
        omega
      · dsimp only
        omega
      · dsimp only
        omega
      · intro j hj1 hj2
        dsimp only
        rw [getD_setRange, if_neg (by omega)]
      · intro j hj1 hj2
        dsimp only
        rw [getD_setRange, if_pos ⟨hj1, by omega, by omega⟩]
    · refine ⟨⟨newSize, a.capacity, a.elements⟩, ?_, rfl, hlen, ?_, ?_, ?_, ?_, ?_⟩
      · unfold Array.resize
        rw [hok]
        dsimp only
        rw [if_neg hfill]
      · dsimp only
        omega
      · dsimp only
        omega
      · dsimp only
        omega
      · intro j _ _
        rfl
      · intro j hj1 hj2
        omega

/-- C2: for every array and every index at or past the length (and
representable, so that the growth does not exceed INT32_MAX),
set(index, value) grows the array, zero fills every slot in
[length, index), writes the value at the index, sets the length to
index + 1, and keeps the slots below the old length. -/
theorem set_beyond_length_grows {T : Type} [Zero T] (a : Array T) (index : Nat) (value : T)
    (hla : a.length ≤ a.capacity) (hlen : a.elements.length = a.capacity)
    (hcap : a.capacity ≤ INT32_MAX) (hidx : a.length ≤ index) (hmax : index + 1 ≤ INT32_MAX) :
    ∃ a', a.set index value = .ok a' ∧
      a'.length = index + 1 ∧
      (∀ j, a.length ≤ j → j < index → a'.elements.getD j none = some 0) ∧
      a'.elements.getD index none = some value ∧
      (∀ j, j < a.length → a'.elements.getD j none = a.elements.getD j none) := by
  obtain ⟨a1, hres, hlen1, hblen1, hcaple1, hsz1, hcapmax1, hpres, hzero⟩ :=
    resize_spec a (index + 1) hla hlen hcap hmax
  have hidxlen : index < a1.elements.length := by
    rw [hblen1]
    omega
  refine ⟨{ a1 with elements := a1.elements.set index (some value) }, ?_, ?_, ?_, ?_, ?_⟩
  · unfold Array.set
    rw [if_pos hidx, hres]
  · dsimp only
    exact hlen1
  · intro j hj1 hj2
    dsimp only
    rw [getD_set, if_neg (by omega)]
    exact hzero j hj1 (by omega)
  · dsimp only
    rw [getD_set, if_pos ⟨rfl, hidxlen⟩]
  · intro j hj
    dsimp only
    rw [getD_set, if_neg (by omega)]
    exact hpres j hj (by omega)

/-- C2 witness: set(5, 7) on a length 2 array yields length 6, the
slots 2, 3 and 4 zero valued, slot 5 holding 7, and the first two slots
unchanged. -/
theorem set_beyond_length_grows_witness :
    ∃ a', Array.set (⟨2, 2, [some 1, some 2]⟩ : Array Int) 5 7 = .ok a' ∧
      a'.length = 5 + 1 ∧
      (∀ j, (⟨2, 2, [some 1, some 2]⟩ : Array Int).length ≤ j → j < 5 →
        a'.elements.getD j none = some 0) ∧
      a'.elements.getD 5 none = some 7 ∧
      (∀ j, j < (⟨2, 2, [some 1, some 2]⟩ : Array Int).length →
        a'.elements.getD j none =
          (⟨2, 2, [some 1, some 2]⟩ : Array Int).elements.getD j none) :=
  set_beyond_length_grows ⟨2, 2, [some 1, some 2]⟩ 5 7 (by decide) (by decide) (by decide)
    (by decide) (by decide)

/-- C3: whenever a mutating operation needs capacity at least
requiredMinimum greater than the current capacity, a requiredMinimum
exceeding INT32_MAX fails CapacityExceeded, and otherwise the new
capacity equals max(requiredMinimum, capacity == 0 ? 16 : capacity * 2)
capped at 2^31 - 1; concretely, starting from capacity 0 the first push
yields capacity 16, after 16 pushes the capacity is still 16, and the
17th push yields capacity 32. -/
theorem ensureCapacity_growth_policy {T : Type} (a : Array T) (requiredMinimum : Nat)
    (hlen : a.elements.length = a.capacity) (hneed : a.capacity < requiredMinimum) :
    (INT32_MAX < requiredMinimum →
      a.ensureCapacity requiredMinimum = .error .capacityExceeded) ∧
    (requiredMinimum ≤ INT32_MAX → ∃ a', a.ensureCapacity requiredMinimum = .ok a' ∧
      a'.capacity = min (max requiredMinimum
        (if a.capacity = 0 then 16 else a.capacity * 2)) (2 ^ 31 - 1)) ∧
    (pushOne^[1] (⟨0, 0, []⟩ : Array Int)).capacity = 16 ∧
    (pushOne^[16] (⟨0, 0, []⟩ : Array Int)).capacity = 16 ∧
    (pushOne^[17] (⟨0, 0, []⟩ : Array Int)).capacity = 32 := by
  refine ⟨fun h => ensureCapacity_error a requiredMinimum hneed h, ?_, by decide, by decide,
    by decide⟩
  intro h
  obtain ⟨buf, hok, _, _⟩ := ensureCapacity_grow a requiredMinimum hlen hneed h
  exact ⟨_, hok, rfl⟩

/-- C3 witness: growing an empty array for one required element
produces capacity 16 = max(1, 16) capped at 2^31 - 1. -/
theorem ensureCapacity_growth_policy_witness :
    (INT32_MAX < 1 →
      Array.ensureCapacity (⟨0, 0, []⟩ : Array Int) 1 = .error .capacityExceeded) ∧
    (1 ≤ INT32_MAX → ∃ a', Array.ensureCapacity (⟨0, 0, []⟩ : Array Int) 1 = .ok a' ∧
      a'.capacity = min (max 1
        (if (⟨0, 0, []⟩ : Array Int).capacity = 0 then 16
         else (⟨0, 0, []⟩ : Array Int).capacity * 2)) (2 ^ 31 - 1)) ∧
    (pushOne^[1] (⟨0, 0, []⟩ : Array Int)).capacity = 16 ∧
    (pushOne^[16] (⟨0, 0, []⟩ : Array Int)).capacity = 16 ∧
    (pushOne^[17] (⟨0, 0, []⟩ : Array Int)).capacity = 32 :=
  ensureCapacity_growth_policy (⟨0, 0, []⟩ : Array Int) 1 (by decide) (by decide)

/-- C4: fill(value, start, end) resolves a negative start to
length + start and a negative end to length + end (the resolved index
the code computes agrees with that signed sum whenever the sum is non
negative), fails IndexOutOfRange if the resolved start is at least the
length or the resolved end exceeds the length, is a no op (not an
error) when the resolved end is below the resolved start, and otherwise
writes value into exactly the slots of [resolved start, resolved end),
leaving length and capacity unchanged. -/
theorem fill_resolves_negative_indices {T : Type} (a : Array T) (value : T) (start end_ : Int)
    (hla : a.length ≤ a.capacity) (hlen : a.elements.length = a.capacity)
    (hcap : a.capacity ≤ INT32_MAX)
    (hs : -(a.length : Int) ≤ start) (he : -(a.length : Int) ≤ end_) :
    (start < 0 → (resolveFillIndex a.length start : Int) = (a.length : Int) + start) ∧
    (0 ≤ start → (resolveFillIndex a.length start : Int) = start) ∧
    (end_ < 0 → (resolveFillIndex a.length end_ : Int) = (a.length : Int) + end_) ∧
    (0 ≤ end_ → (resolveFillIndex a.length end_ : Int) = end_) ∧
    (a.length ≤ resolveFillIndex a.length start ∨ a.length < resolveFillIndex a.length end_ →
      a.fill value start end_ = .error .indexOutOfRange) ∧
    (resolveFillIndex a.length start < a.length → resolveFillIndex a.length end_ ≤ a.length →
      resolveFillIndex a.length end_ < resolveFillIndex a.length start →
      a.fill value start end_ = .ok a) ∧
    (resolveFillIndex a.length start < a.length → resolveFillIndex a.length end_ ≤ a.length →
      resolveFillIndex a.length start ≤ resolveFillIndex a.length end_ →
      ∃ a', a.fill value start end_ = .ok a' ∧
        a'.length = a.length ∧ a'.capacity = a.capacity ∧
        ∀ j : Nat, a'.elements.getD j none =
          if resolveFillIndex a.length start ≤ j ∧ j < resolveFillIndex a.length end_
          then some value else a.elements.getD j none) := by
  have hI : INT32_MAX = 2 ^ 31 - 1 := rfl
  have hresolve : ∀ i : Int, -(a.length : Int) ≤ i → i < 0 →
      (resolveFillIndex a.length i : Int) = (a.length : Int) + i := by
    intro i h1 h2
    unfold resolveFillIndex
    rw [if_pos h2]
    have hmod : ((a.length : Int) + i) % SIZE_T_MOD = (a.length : Int) + i := by
      apply Int.emod_eq_of_lt (by omega)
      have : (a.length : Int) ≤ (INT32_MAX : Nat) := by
        exact_mod_cast Nat.le_trans hla hcap
      rw [hI] at this
      unfold SIZE_T_MOD
      omega
    rw [hmod]
    apply Int.toNat_of_nonneg
    omega
  have hresolve2 : ∀ i : Int, 0 ≤ i → (resolveFillIndex a.length i : Int) = i := by
    intro i h1
    unfold resolveFillIndex
    rw [if_neg (by omega)]
    exact Int.toNat_of_nonneg h1
  refine ⟨fun h => hresolve start hs h, fun h => hresolve2 start h,
    fun h => hresolve end_ he h, fun h => hresolve2 end_ h, ?_, ?_, ?_⟩
  · intro hout
    unfold Array.fill
    by_cases h1 : a.length ≤ resolveFillIndex a.length start
    · rw [if_pos h1]
    · rw [if_neg h1, if_pos (show a.length < resolveFillIndex a.length end_ by
        rcases hout with h | h
        · omega
        · exact h)]
  · intro h1 h2 h3
    unfold Array.fill
    rw [if_neg (by omega), if_neg (by omega), if_pos h3]
  · intro h1 h2 h3
    refine ⟨{ a with
        elements := setRange a.elements (some value) (resolveFillIndex a.length start)
          (resolveFillIndex a.length end_ - resolveFillIndex a.length start) },
      ?_, rfl, rfl, ?_⟩
    · unfold Array.fill
      rw [if_neg (by omega), if_neg (by omega), if_neg (by omega)]
    · intro j
      dsimp only
      rw [getD_setRange]
      by_cases hc : resolveFillIndex a.length start ≤ j ∧ j < resolveFillIndex a.length end_
      · rw [if_pos ⟨hc.1, by omega, by omega⟩, if_pos hc]
      · rw [if_neg (by omega), if_neg hc]

/-- C4 witness: fill(9, -2, -1) on a length 5 array resolves to
start 3 and end 4 and fills index 3 only. -/
theorem fill_resolves_negative_indices_witness :
    resolveFillIndex 5 (-2) ≤ resolveFillIndex 5 (-1) ∧
    ∃ a', Array.fill (⟨5, 5, [some 1, some 2, some 3, some 4, some 5]⟩ : Array Int)
        9 (-2) (-1) = .ok a' ∧
      a'.length = (⟨5, 5, [some 1, some 2, some 3, some 4, some 5]⟩ : Array Int).length ∧
      a'.capacity = (⟨5, 5, [some 1, some 2, some 3, some 4, some 5]⟩ : Array Int).capacity ∧
      ∀ j : Nat, a'.elements.getD j none =
        if resolveFillIndex 5 (-2) ≤ j ∧ j < resolveFillIndex 5 (-1)
        then some 9
        else (⟨5, 5, [some 1, some 2, some 3, some 4, some 5]⟩ :
          Array Int).elements.getD j none :=
  ⟨by decide,
    (fill_resolves_negative_indices (⟨5, 5, [some 1, some 2, some 3, some 4, some 5]⟩ :
        Array Int) 9 (-2) (-1) (by decide) (by decide) (by decide) (by decide)
      (by decide)).2.2.2.2.2.2 (by decide) (by decide) (by decide)⟩

/-- C5: evaluation of the source at the failing input. unshift of the
single element 30 onto the array holding [10, 20] is supposed to yield
[30, 10, 20], but the source performs std::copy of the current contents
into an overlapping destination one slot to the right; copied front to
back, the write of slot 1 clobbers the element that the next step
reads, so the code produces [30, 10, 10]. push of the same element
appends correctly. -/
theorem unshift_overlapping_copy_eval :
    Array.unshift (⟨2, 2, [some 10, some 20]⟩ : Array Int) [30] =
      .ok (3, ⟨3, 4, [some 30, some 10, some 10, none]⟩) ∧
    Array.push (⟨2, 2, [some 10, some 20]⟩ : Array Int) [30] =
      .ok (3, ⟨3, 4, [some 10, some 20, some 30, none]⟩) := by
  exact ⟨rfl, rfl⟩

/-- C6: pop and shift on an empty array fail EmptyArray, returning the
error before any mutation (the model returns no array at all on the
error path, mirroring the source throwing before it touches length or
buffer); on a non empty array pop removes and returns the last element
leaving capacity and buffer untouched, and shift removes and returns
the first element with the remaining elements shifted left by one,
leaving capacity untouched. -/
theorem pop_shift_empty_and_nonempty {T : Type} (a : Array T)
    (h : a.length ≤ a.elements.length) :
    (a.length = 0 → a.pop = .error .emptyArray ∧ a.shift = .error .emptyArray) ∧
    (0 < a.length →
      a.pop = .ok (a.elements.getD (a.length - 1) none,
        ⟨a.length - 1, a.capacity, a.elements⟩)) ∧
    (0 < a.length →
      ∃ x a', a.shift = .ok (x, a') ∧ x = a.elements.getD 0 none ∧
        a'.length = a.length - 1 ∧ a'.capacity = a.capacity ∧
        ∀ j, j + 1 < a.length → a'.elements.getD j none = a.elements.getD (j + 1) none) := by
  refine ⟨?_, ?_, ?_⟩
  · intro h0
    constructor
    · unfold Array.pop
      rw [if_pos h0]
    · unfold Array.shift
      rw [if_pos h0]
  · intro h0
    unfold Array.pop
    rw [if_neg (by omega)]
  · intro h0
    refine ⟨a.elements.getD 0 none,
      { a with length := a.length - 1, elements := copySeq a.elements 1 0 (a.length - 1) },
      ?_, rfl, rfl, rfl, ?_⟩
    · unfold Array.shift
      rw [if_neg (by omega)]
    · intro j hj
      dsimp only
      rw [getD_copySeq_shiftLeft _ _ _ _ _ (by omega),
        if_pos ⟨by omega, by omega, by omega⟩]
      congr 1
      omega

/-- C6 witness: on the one element array holding 4, pop returns 4 with
the length dropping to 0, and shift returns 4 as well. -/
theorem pop_shift_empty_and_nonempty_witness :
    ((⟨1, 1, [some 4]⟩ : Array Int).length = 0 →
      Array.pop (⟨1, 1, [some 4]⟩ : Array Int) = .error .emptyArray ∧
      Array.shift (⟨1, 1, [some 4]⟩ : Array Int) = .error .emptyArray) ∧
    (0 < (⟨1, 1, [some 4]⟩ : Array Int).length →
      Array.pop (⟨1, 1, [some 4]⟩ : Array Int) =
        .ok ((⟨1, 1, [some 4]⟩ : Array Int).elements.getD
              ((⟨1, 1, [some 4]⟩ : Array Int).length - 1) none,
          ⟨(⟨1, 1, [some 4]⟩ : Array Int).length - 1,
            (⟨1, 1, [some 4]⟩ : Array Int).capacity,
            (⟨1, 1, [some 4]⟩ : Array Int).elements⟩)) ∧
    (0 < (⟨1, 1, [some 4]⟩ : Array Int).length →
      ∃ x a', Array.shift (⟨1, 1, [some 4]⟩ : Array Int) = .ok (x, a') ∧
        x = (⟨1, 1, [some 4]⟩ : Array Int).elements.getD 0 none ∧
        a'.length = (⟨1, 1, [some 4]⟩ : Array Int).length - 1 ∧
        a'.capacity = (⟨1, 1, [some 4]⟩ : Array Int).capacity ∧
        ∀ j, j + 1 < (⟨1, 1, [some 4]⟩ : Array Int).length →
          a'.elements.getD j none =
            (⟨1, 1, [some 4]⟩ : Array Int).elements.getD (j + 1) none) :=
  pop_shift_empty_and_nonempty (⟨1, 1, [some 4]⟩ : Array Int) (by decide)

theorem inv_of {T : Type} (a : Array T) (h1 : a.length ≤ a.capacity)
    (h2 : a.elements.length = a.capacity) (h3 : a.capacity ≤ INT32_MAX)
    (h4 : ∀ i, i < a.length → (a.elements.getD i none).isSome) : a.inv := by
  refine ⟨h1, h2, h3, ?_, h4⟩
  rw [← h2]
  exact List.length_eq_zero.symm

theorem resize_error {T : Type} [Zero T] (a : Array T) (newSize : Nat)
    (hcap : a.capacity ≤ INT32_MAX) (h : INT32_MAX < newSize) :
    a.resize newSize = .error .capacityExceeded := by
  unfold Array.resize
  rw [ensureCapacity_error a newSize (by omega) h]

theorem ensureCapacity_ok_spec {T : Type} (a : Array T) (min : Nat) (a1 : Array T)
    (hla : a.length ≤ a.capacity) (hlen : a.elements.length = a.capacity)
    (hcap : a.capacity ≤ INT32_MAX) (hok : a.ensureCapacity min = .ok a1) :
    a1.length = a.length ∧ a1.elements.length = a1.capacity ∧ a.capacity ≤ a1.capacity ∧
    min ≤ a1.capacity ∧ a1.capacity ≤ INT32_MAX ∧
    (∀ j, j < a.elements.length → a1.elements.getD j none = a.elements.getD j none) := by
  by_cases hge : min ≤ a.capacity
  · rw [ensureCapacity_ok_of_le a min hge] at hok
    injection hok with h
    subst h
    exact ⟨rfl, hlen, Nat.le_refl _, hge, hcap, fun j _ => rfl⟩
  · by_cases hmax : min ≤ INT32_MAX
    · obtain ⟨buf, heq, hblen, hbget⟩ := ensureCapacity_grow a min hlen (by omega) hmax
      rw [heq] at hok
      injection hok with h
      subst h
      have hg1 : min ≤ grownCapacity a.capacity min := min_le_grownCapacity _ _ hmax
      have hg2 : grownCapacity a.capacity min ≤ INT32_MAX := grownCapacity_le _ _
      refine ⟨rfl, ?_, by dsimp only; omega, by dsimp only; omega, hg2, ?_⟩
      · dsimp only
        exact hblen
      · intro j hj
        dsimp only
        rw [hbget, if_pos hj]
    · rw [ensureCapacity_error a min (by omega) (by omega)] at hok
      cases hok

theorem push_ok_elim {T : Type} (a : Array T) (xs : List T) (n : Nat) (b : Array T)
    (hok : a.push xs = .ok (n, b)) :
    ∃ a1, a.ensureCapacity (a.length + xs.length) = .ok a1 ∧
      n = a.length + xs.length ∧
      b = { a1 with
            length := a.length + xs.length
            elements := writeList a1.elements a1.length xs } := by
  unfold Array.push at hok
  dsimp only at hok
  cases heq : a.ensureCapacity (a.length + xs.length) with
  | error e =>
    rw [heq] at hok
    cases hok
  | ok a1 =>
    rw [heq] at hok
    dsimp only at hok
    injection hok with h
    injection h with h1 h2
    exact ⟨a1, rfl, h1.symm, h2.symm⟩

theorem unshift_ok_elim {T : Type} (a : Array T) (xs : List T) (n : Nat) (b : Array T)
    (hok : a.unshift xs = .ok (n, b)) :
    ∃ a1, a.ensureCapacity (a.length + xs.length) = .ok a1 ∧
      n = a.length + xs.length ∧
      b = { a1 with
            length := a.length + xs.length
            elements := writeList (copySeq a1.elements 0 xs.length a1.length) 0 xs } := by
  unfold Array.unshift at hok
  dsimp only at hok
  cases heq : a.ensureCapacity (a.length + xs.length) with
  | error e =>
    rw [heq] at hok
    cases hok
  | ok a1 =>
    rw [heq] at hok
    dsimp only at hok
    injection hok with h
    injection h with h1 h2
    exact ⟨a1, rfl, h1.symm, h2.symm⟩

/-- C9: every array operation preserves the buffer invariants: the
length never exceeds the capacity, the buffer pointer is empty exactly
when the capacity is zero, and every slot below the length is
initialized (copied in or zero filled). The construction conjuncts
establish the invariant; the copying constructor carries the documented
caller contract that the source buffer holds at least size elements. -/
theorem array_ops_preserve_invariants {T : Type} [Zero T] (a : Array T) (hinv : a.inv) :
    (∀ size (b : Array T), Array.make size none = .ok b → b.inv) ∧
    (∀ size xs (b : Array T), size ≤ xs.length → Array.make size (some xs) = .ok b → b.inv) ∧
    (∀ i v b, a.set i v = .ok b → b.inv) ∧
    (∀ v s e b, a.fill v s e = .ok b → b.inv) ∧
    (∀ xs n b, a.push xs = .ok (n, b) → b.inv) ∧
    (∀ xs n b, a.unshift xs = .ok (n, b) → b.inv) ∧
    (∀ x b, a.pop = .ok (x, b) → b.inv) ∧
    (∀ x b, a.shift = .ok (x, b) → b.inv) ∧
    (∀ n b, a.resize n = .ok b → b.inv) ∧
    (∀ m b, a.ensureCapacity m = .ok b → b.inv) := by
  obtain ⟨hla, hlen, hcap, hiff, hinit⟩ := id hinv
  refine ⟨?_, ?_, ?_, ?_, ?_, ?_, ?_, ?_, ?_, ?_⟩
  · -- constructor, default initialized
    intro size b hok
    unfold Array.make at hok
    by_cases hsz : size = 0
    · rw [if_pos hsz] at hok
      injection hok with h
      subst h
      refine inv_of _ (Nat.le_refl _) rfl (Nat.zero_le _) ?_
      intro i hi
      simp at hi
    · rw [if_neg hsz] at hok
      by_cases hsc : size ≤ INT32_MAX
      · obtain ⟨buf, halloc, hblen, hbget⟩ :=
          allocateElements_ok size ([] : List (Option T)) hsc (by simp)
        rw [halloc] at hok
        dsimp only at hok
        injection hok with h
        subst h
        refine inv_of _ (Nat.le_refl _) ?_ hsc ?_
        · dsimp only
          rw [length_setRange]
          exact hblen
        · intro i hi
          dsimp only at hi ⊢
          rw [getD_setRange, if_pos ⟨Nat.zero_le _, by omega, by omega⟩]
          rfl
      · have herr : allocateElements size ([] : List (Option T)) = .error .capacityExceeded := by
          unfold allocateElements
          rw [if_pos (by omega)]
        rw [herr] at hok
        cases hok
  · -- constructor, copying
    intro size xs b hxs hok
    unfold Array.make at hok
    by_cases hsz : size = 0
    · rw [if_pos hsz] at hok
      injection hok with h
      subst h
      refine inv_of _ (Nat.le_refl _) rfl (Nat.zero_le _) ?_
      intro i hi
      simp at hi
    · rw [if_neg hsz] at hok
      by_cases hsc : size ≤ INT32_MAX
      · obtain ⟨buf, halloc, hblen, hbget⟩ :=
          allocateElements_ok size ([] : List (Option T)) hsc (by simp)
        rw [halloc] at hok
        dsimp only at hok
        injection hok with h
        subst h
        have htl : (xs.take size).length = size := by
          rw [List.length_take]
          omega
        refine inv_of _ (Nat.le_refl _) ?_ hsc ?_
        · dsimp only
          rw [length_writeList]
          exact hblen
        · intro i hi
          dsimp only at hi ⊢
          rw [getD_writeList, if_pos ⟨Nat.zero_le _, by omega, by omega⟩,
            List.getElem?_eq_getElem (by omega)]
          rfl
      · have herr : allocateElements size ([] : List (Option T)) = .error .capacityExceeded := by
          unfold allocateElements
          rw [if_pos (by omega)]
        rw [herr] at hok
        cases hok
  · -- set
    intro i v b hok
    unfold Array.set at hok
    by_cases hidx : a.length ≤ i
    · rw [if_pos hidx] at hok
      by_cases hmax : i + 1 ≤ INT32_MAX
      · obtain ⟨a1, hres, hlen1, hblen1, hcaple1, hsz1, hcapmax1, hpres, hzero⟩ :=
          resize_spec a (i + 1) hla hlen hcap hmax
        rw [hres] at hok
        dsimp only at hok
        injection hok with h
        subst h
        refine inv_of _ ?_ ?_ hcapmax1 ?_
        · dsimp only
          omega
        · dsimp only
          rw [List.length_set]
          exact hblen1
        · intro j hj
          dsimp only at hj ⊢
          rw [getD_set]
          by_cases hc : i = j ∧ j < a1.elements.length
          · rw [if_pos hc]
            rfl
          · rw [if_neg hc]
            have hji : j ≠ i := by
              intro h
              exact hc ⟨h.symm, by omega⟩
            by_cases hja : j < a.length
            · rw [hpres j hja (by omega)]
              exact hinit j hja
            · rw [hzero j (by omega) (by omega)]
              rfl
      · rw [resize_error a (i + 1) hcap (by omega)] at hok
        cases hok
    · rw [if_neg hidx] at hok
      injection hok with h
      subst h
      refine inv_of _ (by dsimp only; omega) ?_ hcap ?_
      · dsimp only
        rw [List.length_set]
        exact hlen
      · intro j hj
        dsimp only at hj ⊢
        rw [getD_set]
        by_cases hc : i = j ∧ j < a.elements.length
        · rw [if_pos hc]
          rfl
        · rw [if_neg hc]
          exact hinit j hj
  · -- fill
    intro v s e b hok
    unfold Array.fill at hok
    dsimp only at hok
    split_ifs at hok with h1 h2 h3
    · injection hok with h
      subst h
      exact hinv
    · injection hok with h
      subst h
      refine inv_of _ (by dsimp only; omega) ?_ hcap ?_
      · dsimp only
        rw [length_setRange]
        exact hlen
      · intro j hj
        dsimp only at hj ⊢
        rw [getD_setRange]
        by_cases hc : resolveFillIndex a.length s ≤ j ∧
            j < resolveFillIndex a.length s +
              (resolveFillIndex a.length e - resolveFillIndex a.length s) ∧
            j < a.elements.length
        · rw [if_pos hc]
          rfl
        · rw [if_neg hc]
          exact hinit j hj
  · -- push
    intro xs n b hok
    obtain ⟨a1, hens, hn, hb⟩ := push_ok_elim a xs n b hok
    obtain ⟨he1, he2, he3, he4, he5, he6⟩ := ensureCapacity_ok_spec a _ a1 hla hlen hcap hens
    subst hb
    refine inv_of _ (by dsimp only; omega) ?_ (by dsimp only; exact he5) ?_
    · dsimp only
      rw [length_writeList]
      exact he2
    · intro j hj
      dsimp only at hj ⊢
      rw [getD_writeList]
      by_cases hc : a1.length ≤ j ∧ j < a1.length + xs.length ∧ j < a1.elements.length
      · rw [if_pos hc, List.getElem?_eq_getElem (by omega)]
        rfl
      · rw [if_neg hc]
        have hja : j < a.length := by
          by_cases hja1 : a1.length ≤ j
          · exfalso
            exact hc ⟨hja1, by omega, by omega⟩
          · omega
        rw [he6 j (by omega)]
        exact hinit j hja
  · -- unshift
    intro xs n b hok
    obtain ⟨a1, hens, hn, hb⟩ := unshift_ok_elim a xs n b hok
    obtain ⟨he1, he2, he3, he4, he5, he6⟩ := ensureCapacity_ok_spec a _ a1 hla hlen hcap hens
    subst hb
    have hcslen : (copySeq a1.elements 0 xs.length a1.length).length = a1.elements.length :=
      length_copySeq _ _ _ _
    have hsome := copySeq_isSome a1.length a1.elements 0 xs.length
      (by
        intro i hi
        rw [he6 i (by omega)]
        exact hinit i (by omega))
      (by omega)
    refine inv_of _ (by dsimp only; omega) ?_ (by dsimp only; exact he5) ?_
    · dsimp only
      rw [length_writeList, hcslen]
      exact he2
    · intro j hj
      dsimp only at hj ⊢
      rw [getD_writeList]
      by_cases hc : 0 ≤ j ∧ j < 0 + xs.length ∧
          j < (copySeq a1.elements 0 xs.length a1.length).length
      · rw [if_pos hc, List.getElem?_eq_getElem (by omega)]
        rfl
      · rw [if_neg hc]
        have hjx : xs.length ≤ j := by
          by_cases hx : j < xs.length
          · exfalso
            exact hc ⟨Nat.zero_le _, by omega, by omega⟩
          · omega
        have := hsome.2 (j - xs.length) (by omega)
        rwa [show xs.length + (j - xs.length) = j by omega] at this
  · -- pop
    intro x b hok
    unfold Array.pop at hok
    split_ifs at hok with h0
    injection hok with h
    injection h with h1 h2
    subst h2
    refine inv_of _ (by dsimp only; omega) hlen hcap ?_
    intro j hj
    dsimp only at hj ⊢
    exact hinit j (by omega)
  · -- shift
    intro x b hok
    unfold Array.shift at hok
    split_ifs at hok with h0
    injection hok with h
    injection h with h1 h2
    subst h2
    refine inv_of _ (by dsimp only; omega) ?_ hcap ?_
    · dsimp only
      rw [length_copySeq]
      exact hlen
    · intro j hj
      dsimp only at hj ⊢
      rw [getD_copySeq_shiftLeft _ _ _ _ _ (by omega),
        if_pos ⟨Nat.zero_le _, by omega, by omega⟩,
        show 1 + (j - 0) = j + 1 by omega]
      exact hinit (j + 1) (by omega)
  · -- resize
    intro n b hok
    by_cases hmax : n ≤ INT32_MAX
    · obtain ⟨a1, hres, hlen1, hblen1, hcaple1, hsz1, hcapmax1, hpres, hzero⟩ :=
        resize_spec a n hla hlen hcap hmax
      rw [hres] at hok
      injection hok with h
      subst h
      refine inv_of _ (by omega) hblen1 hcapmax1 ?_
      intro j hj
      by_cases hja : j < a.length
      · rw [hpres j hja (by omega)]
        exact hinit j hja
      · rw [hzero j (by omega) (by omega)]
        rfl
    · rw [resize_error a n hcap (by omega)] at hok
      cases hok
  · -- ensureCapacity
    intro m b hok
    obtain ⟨he1, he2, he3, he4, he5, he6⟩ := ensureCapacity_ok_spec a m b hla hlen hcap hok
    refine inv_of _ (by omega) he2 he5 ?_
    intro j hj
    rw [he6 j (by omega)]
    exact hinit j (by omega)

/-- C9 witness: on the one element array holding 3 (which satisfies the
invariant), resizing to 5 produces the zero filled five slot array,
which satisfies the invariant as well. -/
theorem array_ops_preserve_invariants_witness :
    (⟨5, 5, [some 3, some 0, some 0, some 0, some 0]⟩ : Array Int).inv :=
  (array_ops_preserve_invariants (⟨1, 1, [some 3]⟩ : Array Int)
      (by decide)).2.2.2.2.2.2.2.2.1 5
    ⟨5, 5, [some 3, some 0, some 0, some 0, some 0]⟩ rfl

/-- C10: across every operation, the capacity never decreases: the
growth operations can only raise it, fill never touches it, and pop,
shift and a shrinking resize leave it unchanged (the backing buffer is
kept, only the length moves). -/
theorem capacity_never_decreases {T : Type} [Zero T] (a : Array T) (hinv : a.inv) :
    (∀ m b, a.ensureCapacity m = .ok b → a.capacity ≤ b.capacity) ∧
    (∀ n b, a.resize n = .ok b → a.capacity ≤ b.capacity) ∧
    (∀ i v b, a.set i v = .ok b → a.capacity ≤ b.capacity) ∧
    (∀ v s e b, a.fill v s e = .ok b → b.capacity = a.capacity) ∧
    (∀ xs n b, a.push xs = .ok (n, b) → a.capacity ≤ b.capacity) ∧
    (∀ xs n b, a.unshift xs = .ok (n, b) → a.capacity ≤ b.capacity) ∧
    (∀ x b, a.pop = .ok (x, b) → b.capacity = a.capacity) ∧
    (∀ x b, a.shift = .ok (x, b) → b.capacity = a.capacity) := by
  obtain ⟨hla, hlen, hcap, hiff, hinit⟩ := id hinv
  refine ⟨?_, ?_, ?_, ?_, ?_, ?_, ?_, ?_⟩
  · intro m b hok
    exact (ensureCapacity_ok_spec a m b hla hlen hcap hok).2.2.1
  · intro n b hok
    by_cases hmax : n ≤ INT32_MAX
    · obtain ⟨a1, hres, _, _, hcaple1, _, _, _, _⟩ := resize_spec a n hla hlen hcap hmax
      rw [hres] at hok
      injection hok with h
      subst h
      exact hcaple1
    · rw [resize_error a n hcap (by omega)] at hok
      cases hok
  · intro i v b hok
    unfold Array.set at hok
    by_cases hidx : a.length ≤ i
    · rw [if_pos hidx] at hok
      by_cases hmax : i + 1 ≤ INT32_MAX
      · obtain ⟨a1, hres, _, _, hcaple1, _, _, _, _⟩ := resize_spec a (i + 1) hla hlen hcap hmax
        rw [hres] at hok
        dsimp only at hok
        injection hok with h
        subst h
        exact hcaple1
      · rw [resize_error a (i + 1) hcap (by omega)] at hok
        cases hok
    · rw [if_neg hidx] at hok
      injection hok with h
      subst h
      exact Nat.le_refl _
  · intro v s e b hok
    unfold Array.fill at hok
    dsimp only at hok
    split_ifs at hok with h1 h2 h3
    · injection hok with h
      subst h
      rfl
    · injection hok with h
      subst h
      rfl
  · intro xs n b hok
    obtain ⟨a1, hens, hn, hb⟩ := push_ok_elim a xs n b hok
    subst hb
    exact (ensureCapacity_ok_spec a _ a1 hla hlen hcap hens).2.2.1
  · intro xs n b hok
    obtain ⟨a1, hens, hn, hb⟩ := unshift_ok_elim a xs n b hok
    subst hb
    exact (ensureCapacity_ok_spec a _ a1 hla hlen hcap hens).2.2.1
  · intro x b hok
    unfold Array.pop at hok
    split_ifs at hok with h0
    injection hok with h
    injection h with h1 h2
    subst h2
    rfl
  · intro x b hok
    unfold Array.shift at hok
    split_ifs at hok with h0
    injection hok with h
    injection h with h1 h2
    subst h2
    rfl

/-- C10 witness: pop on the one element array holding 3 keeps the
capacity at 1. -/
theorem capacity_never_decreases_witness :
    (⟨0, 1, [some 3]⟩ : Array Int).capacity = (⟨1, 1, [some 3]⟩ : Array Int).capacity :=
  (capacity_never_decreases (⟨1, 1, [some 3]⟩ : Array Int) (by decide)).2.2.2.2.2.2.1
    (some 3) ⟨0, 1, [some 3]⟩ rfl

namespace LLVMLink

theorem onePass_false_eq (objectFiles : List ObjectFile) :
    ∀ inc unres, (onePass objectFiles inc unres).2.2 = false →
      (onePass objectFiles inc unres).1 = inc ∧ (onePass objectFiles inc unres).2.1 = unres := by
  induction objectFiles with
  | nil => intro inc unres _; exact ⟨rfl, rfl⟩
  | cons f rest ih =>
    intro inc unres hfalse
    rw [onePass] at hfalse ⊢
    by_cases hmem : f.path ∈ inc
    · rw [if_pos hmem] at hfalse ⊢
      exact ih inc unres hfalse
    · rw [if_neg hmem] at hfalse ⊢
      cases hc : considerObjectFile f unres with
      | mk accepted unres' =>
        cases accepted
        · rw [hc] at hfalse
          dsimp only at hfalse ⊢
          exact ih inc unres hfalse
        · rw [hc] at hfalse
          dsimp only at hfalse
          cases hfalse

theorem onePass_included_mono (objectFiles : List ObjectFile) :
    ∀ inc unres, inc ⊆ (onePass objectFiles inc unres).1 := by
  induction objectFiles with
  | nil => intro inc unres; exact Finset.Subset.refl inc
  | cons f rest ih =>
    intro inc unres
    rw [onePass]
    by_cases hmem : f.path ∈ inc
    · rw [if_pos hmem]
      exact ih inc unres
    · rw [if_neg hmem]
      cases hc : considerObjectFile f unres with
      | mk accepted unres' =>
        cases accepted
        · exact ih inc unres
        · dsimp only
          exact Finset.Subset.trans (Finset.subset_insert f.path inc)
            (ih (insert f.path inc) unres')

theorem onePass_included_bound (objectFiles : List ObjectFile) :
    ∀ inc unres, (onePass objectFiles inc unres).1 ⊆ inc ∪ pathsOf objectFiles := by
  induction objectFiles with
  | nil =>
    intro inc unres
    exact Finset.subset_union_left
  | cons f rest ih =>
    intro inc unres
    rw [onePass]
    have hpaths : pathsOf (f :: rest) = insert f.path (pathsOf rest) := by
      unfold pathsOf
      rw [List.map_cons, List.toFinset_cons]
    by_cases hmem : f.path ∈ inc
    · rw [if_pos hmem]
      refine Finset.Subset.trans (ih inc unres) (Finset.union_subset_union_right ?_)
      rw [hpaths]
      exact Finset.subset_insert _ _
    · rw [if_neg hmem]
      cases hc : considerObjectFile f unres with
      | mk accepted unres' =>
        cases accepted
        · refine Finset.Subset.trans (ih inc unres) (Finset.union_subset_union_right ?_)
          rw [hpaths]
          exact Finset.subset_insert _ _
        · dsimp only
          refine Finset.Subset.trans (ih (insert f.path inc) unres') ?_
          rw [hpaths]
          intro x hx
          rcases Finset.mem_union.mp hx with hx | hx
          · rcases Finset.mem_insert.mp hx with hx | hx
            · exact Finset.mem_union_right _ (hx ▸ Finset.mem_insert_self _ _)
            · exact Finset.mem_union_left _ hx
          · exact Finset.mem_union_right _ (Finset.mem_insert_of_mem hx)

theorem onePass_progress (objectFiles : List ObjectFile) :
    ∀ inc unres, (onePass objectFiles inc unres).2.2 = true →
      ∃ p, p ∈ pathsOf objectFiles ∧ p ∉ inc ∧ p ∈ (onePass objectFiles inc unres).1 := by
  induction objectFiles with
  | nil =>
    intro inc unres htrue
    cases htrue
  | cons f rest ih =>
    intro inc unres htrue
    have hpaths : pathsOf (f :: rest) = insert f.path (pathsOf rest) := by
      unfold pathsOf
      rw [List.map_cons, List.toFinset_cons]
    rw [onePass] at htrue ⊢
    by_cases hmem : f.path ∈ inc
    · rw [if_pos hmem] at htrue ⊢
      obtain ⟨p, hp1, hp2, hp3⟩ := ih inc unres htrue
      exact ⟨p, by rw [hpaths]; exact Finset.mem_insert_of_mem hp1, hp2, hp3⟩
    · rw [if_neg hmem] at htrue ⊢
      cases hc : considerObjectFile f unres with
      | mk accepted unres' =>
        cases accepted
        · rw [hc] at htrue
          dsimp only at htrue ⊢
          obtain ⟨p, hp1, hp2, hp3⟩ := ih inc unres htrue
          exact ⟨p, by rw [hpaths]; exact Finset.mem_insert_of_mem hp1, hp2, hp3⟩
        · dsimp only
          refine ⟨f.path, by rw [hpaths]; exact Finset.mem_insert_self _ _, hmem, ?_⟩
          exact onePass_included_mono rest (insert f.path inc) unres'
            (Finset.mem_insert_self _ _)

theorem linkLoop_reaches_fixpoint (objectFiles : List ObjectFile) :
    ∀ fuel inc unres, (pathsOf objectFiles \ inc).card < fuel →
      (onePass objectFiles (linkLoop objectFiles fuel inc unres).1
        (linkLoop objectFiles fuel inc unres).2).2.2 = false := by
  intro fuel
  induction fuel with
  | zero =>
    intro inc unres hcard
    exact absurd hcard (by omega)
  | succ fuel ih =>
    intro inc unres hcard
    cases ha : onePass objectFiles inc unres with
    | mk included' r2 =>
      cases r2 with
      | mk unresolved' changed =>
        cases changed
        · have heq : linkLoop objectFiles (fuel + 1) inc unres = (included', unresolved') := by
            rw [linkLoop, ha]
          rw [heq]
          obtain ⟨h1, h2⟩ := onePass_false_eq objectFiles inc unres (by rw [ha])
          rw [ha] at h1 h2
          dsimp only at h1 h2
          subst h1
          subst h2
          rw [ha]
        · have heq : linkLoop objectFiles (fuel + 1) inc unres =
              linkLoop objectFiles fuel included' unresolved' := by
            rw [linkLoop, ha]
          rw [heq]
          apply ih
          obtain ⟨p, hp1, hp2, hp3⟩ := onePass_progress objectFiles inc unres (by rw [ha])
          rw [ha] at hp3
          dsimp only at hp3
          have hsub : inc ⊆ included' := by
            have := onePass_included_mono objectFiles inc unres
            rw [ha] at this
            exact this
          have hss : pathsOf objectFiles \ included' ⊂ pathsOf objectFiles \ inc := by
            constructor
            · exact Finset.sdiff_subset_sdiff (Finset.Subset.refl _) hsub
            · intro hsup
              have hpin : p ∈ pathsOf objectFiles \ inc := Finset.mem_sdiff.mpr ⟨hp1, hp2⟩
              have := hsup hpin
              rw [Finset.mem_sdiff] at this
              exact this.2 hp3
          have := Finset.card_lt_card hss
          omega

end LLVMLink

/-- C8: the resolution loop of the linker terminates for every finite
candidate list and entry symbol set, and it terminates exactly when a
full scan over the not yet included candidates includes nothing new:
onePass at the final state reports no change. Termination is not tied
to the unresolved set becoming empty; the second conjunct shows a run
whose final unresolved set is non empty (a file defining main but
requiring the external symbol ext). -/
theorem link_loop_terminates_at_fixpoint (objectFiles : List ObjectFile)
    (entrySymbols : List String) :
    (LLVMLink.onePass objectFiles
      (LLVMLink.getObjectFilesToLink objectFiles entrySymbols).1
      (LLVMLink.getObjectFilesToLink objectFiles entrySymbols).2).2.2 = false ∧
    (LLVMLink.getObjectFilesToLink [⟨"a", {"main"}, {"ext"}⟩] ["main"]).2 ≠ ∅ := by
  constructor
  · unfold LLVMLink.getObjectFilesToLink
    apply LLVMLink.linkLoop_reaches_fixpoint
    have h1 : (LLVMLink.pathsOf objectFiles \ ∅).card = (LLVMLink.pathsOf objectFiles).card := by
      rw [Finset.sdiff_empty]
    have h2 : (LLVMLink.pathsOf objectFiles).card ≤ objectFiles.length := by
      unfold LLVMLink.pathsOf
      calc (objectFiles.map ObjectFile.path).toFinset.card
          ≤ (objectFiles.map ObjectFile.path).length := objectFiles.map
            ObjectFile.path |>.toFinset_card_le
        _ = objectFiles.length := List.length_map _ _
    omega
  · decide

/-- C7: for every syntax node and every generation context, the
fallback generator fails with the UnsupportedSyntaxKind diagnostic
carrying exactly that node's kind and source location; it returns no
context and has no other effect, so the context is left unchanged. -/
theorem fallback_generator_always_fails {Ctx : Type} (node : TsNode) (context : Ctx) :
    NotYetImplementedCodeGenerator.generate node context =
      .error ⟨node.pos, .unsupportedSyntaxKind, node.kind⟩ := rfl

/-- C1: linking the candidates [A, C, B] with entry symbol main, where
A defines main with an undefined reference to helper, B defines helper,
and C is any unrelated candidate (path distinct from A and B, defined
symbols disjoint from the transitive closure set of the entry symbols,
which here is exactly the two symbols main and helper), includes both A
and B in the linked set and never includes C. -/
theorem link_includes_reachable_excludes_unrelated (C : ObjectFile)
    (hpA : C.path ≠ "A") (hpB : C.path ≠ "B")
    (hdisj : C.defined ∩ ({"main", "helper"} : Finset String) = ∅) :
    "A" ∈ (LLVMLink.getObjectFilesToLink
      [⟨"A", {"main"}, {"helper"}⟩, C, ⟨"B", {"helper"}, ∅⟩] ["main"]).1 ∧
    "B" ∈ (LLVMLink.getObjectFilesToLink
      [⟨"A", {"main"}, {"helper"}⟩, C, ⟨"B", {"helper"}, ∅⟩] ["main"]).1 ∧
    C.path ∉ (LLVMLink.getObjectFilesToLink
      [⟨"A", {"main"}, {"helper"}⟩, C, ⟨"B", {"helper"}, ∅⟩] ["main"]).1 := by
  have hint1 : ∀ u : Finset String, u ⊆ {"main", "helper"} →
      LLVMLink.intersects u C.defined = false := by
    intro u hu
    unfold LLVMLink.intersects
    rw [decide_eq_false_iff_not]
    intro ⟨x, hx⟩
    rw [Finset.mem_inter] at hx
    have hx2 : x ∈ C.defined ∩ ({"main", "helper"} : Finset String) :=
      Finset.mem_inter.mpr ⟨hx.2, hu hx.1⟩
    rw [hdisj] at hx2
    exact Finset.not_mem_empty x hx2
  have hcFA : LLVMLink.considerObjectFile ⟨"A", {"main"}, {"helper"}⟩
      ((["main"] : List String).toFinset) = (true, ({"helper"} : Finset String)) := by decide
  have hcFB : LLVMLink.considerObjectFile ⟨"B", {"helper"}, ∅⟩
      ({"helper"} : Finset String) = (true, (∅ : Finset String)) := by decide
  have hcC1 : LLVMLink.considerObjectFile C ({"helper"} : Finset String)
      = (false, ({"helper"} : Finset String)) := by
    unfold LLVMLink.considerObjectFile
    rw [hint1 {"helper"} (by decide)]
    rfl
  have hcC2 : LLVMLink.considerObjectFile C (∅ : Finset String) = (false, (∅ : Finset String)) := by
    unfold LLVMLink.considerObjectFile
    rw [hint1 ∅ (by decide)]
    rfl
  have hm1 : C.path ∉ (insert "A" (∅ : Finset String)) := by
    simp [hpA]
  have hm2 : C.path ∉ (insert "B" (insert "A" (∅ : Finset String))) := by
    simp [hpA, hpB]
  have hpass1 : LLVMLink.onePass [⟨"A", {"main"}, {"helper"}⟩, C, ⟨"B", {"helper"}, ∅⟩]
      ∅ ((["main"] : List String).toFinset)
      = (insert "B" (insert "A" ∅), ∅, true) := by
    rw [LLVMLink.onePass, if_neg (Finset.not_mem_empty _), hcFA]
    dsimp only
    rw [LLVMLink.onePass, if_neg hm1, hcC1]
    dsimp only
    rw [LLVMLink.onePass, if_neg (by decide), hcFB]
    dsimp only
    rfl
  have hpass2 : LLVMLink.onePass [⟨"A", {"main"}, {"helper"}⟩, C, ⟨"B", {"helper"}, ∅⟩]
      (insert "B" (insert "A" ∅)) ∅
      = (insert "B" (insert "A" ∅), ∅, false) := by
    rw [LLVMLink.onePass, if_pos (by decide)]
    rw [LLVMLink.onePass, if_neg hm2, hcC2]
    dsimp only
    rw [LLVMLink.onePass, if_pos (by decide)]
    rfl
  have hrun : LLVMLink.getObjectFilesToLink
      [⟨"A", {"main"}, {"helper"}⟩, C, ⟨"B", {"helper"}, ∅⟩] ["main"]
      = (insert "B" (insert "A" ∅), ∅) := by
    unfold LLVMLink.getObjectFilesToLink
    rw [show ([⟨"A", {"main"}, {"helper"}⟩, C, ⟨"B", {"helper"}, ∅⟩] :
      List ObjectFile).length + 1 = 3 + 1 from rfl]
    rw [LLVMLink.linkLoop, hpass1]
    dsimp only
    rw [show (3 : Nat) = 2 + 1 from rfl]
    rw [LLVMLink.linkLoop, hpass2]
  rw [hrun]
  refine ⟨by decide, by decide, ?_⟩
  exact hm2

/-- C1 witness: with C the concrete unrelated file at path "C" defining
zzz and requiring www, the linked set holds exactly A and B. -/
theorem link_includes_reachable_excludes_unrelated_witness :
    "A" ∈ (LLVMLink.getObjectFilesToLink
      [⟨"A", {"main"}, {"helper"}⟩, ⟨"C", {"zzz"}, {"www"}⟩, ⟨"B", {"helper"}, ∅⟩]
      ["main"]).1 ∧
    "B" ∈ (LLVMLink.getObjectFilesToLink
      [⟨"A", {"main"}, {"helper"}⟩, ⟨"C", {"zzz"}, {"www"}⟩, ⟨"B", {"helper"}, ∅⟩]
      ["main"]).1 ∧
    (⟨"C", {"zzz"}, {"www"}⟩ : ObjectFile).path ∉ (LLVMLink.getObjectFilesToLink
      [⟨"A", {"main"}, {"helper"}⟩, ⟨"C", {"zzz"}, {"www"}⟩, ⟨"B", {"helper"}, ∅⟩]
      ["main"]).1 :=
  link_includes_reachable_excludes_unrelated ⟨"C", {"zzz"}, {"www"}⟩
    (by decide) (by decide) (by decide)

end SpeedyJS
